import Mathlib

/-!
# Verification of the `stepless` event-driven physics simulator

Shallow embedding of the core of the `stepless` repository
(`ball.py`, `impulse.py`, `universe.py`, `ballview.py`, `timeline.py`)
together with theorems settling the specification claims.

Scalars of the simulation are embedded as real numbers (`ℝ`), the
idealisation of the double-precision arithmetic the source performs; a
separate small model with IEEE special values (`F` below) captures the
infinity/NaN behaviour where a claim is about exactly that.
2-vectors are embedded as pairs of reals.
-/

namespace Stepless

noncomputable section

/-- 2-component vector, as in `types.py` (`vector_T`). -/
abbrev Vec2 : Type := ℝ × ℝ

/-- Zero vector `vec_zero` from `types.py`. -/
def vec_zero : Vec2 := (0, 0)

/-- Dot product of two 2-vectors (`util.dot`). -/
def dot (a b : Vec2) : ℝ := a.1 * b.1 + a.2 * b.2

/-- Division of a vector by a scalar, as numpy's `vec / c` broadcast. -/
def vdiv (v : Vec2) (c : ℝ) : Vec2 := (v.1 / c, v.2 / c)

/-- `Ball` state variables, from `ball.py`: position/velocity at virtual t=0,
constant acceleration, radius, mass, restitution vector. -/
structure Ball where
  x : Vec2
  v : Vec2
  a : Vec2
  r : ℝ
  m : ℝ
  b : Vec2

/-- Default-constructed `Ball()` (all vectors zero, `r=1`, `m=1`). -/
def Ball.default : Ball := ⟨vec_zero, vec_zero, vec_zero, 1, 1, vec_zero⟩

/-- `Ball.x_at`: `(self.a / 2 * t + self.v) * t + self.x`. -/
def Ball.x_at (B : Ball) (t : ℝ) : Vec2 := t • (t • vdiv B.a 2 + B.v) + B.x

/-- `Ball.v_at`: `self.a * t + self.v`. -/
def Ball.v_at (B : Ball) (t : ℝ) : Vec2 := t • B.a + B.v

/-- `Ball.a_at`: `self.a`. -/
def Ball.a_at (B : Ball) (_t : ℝ) : Vec2 := B.a

/-- `Ball.P_at`: momentum `m * v_at(t)`. -/
def Ball.P_at (B : Ball) (t : ℝ) : Vec2 := B.m • B.v_at t

/-- `Ball.F_at`: force `m * a_at(t)`. -/
def Ball.F_at (B : Ball) (t : ℝ) : Vec2 := B.m • B.a_at t

/-- `Ball.apply_impulse(t, dx, dv, da, dP, dF)` from `ball.py`:
`da += dF / m`, `dv += dP / m`, then
`a' = a + da`, `v' = v - da*t + dv`, `x' = x + (da/2*t - dv)*t + dx`. -/
def Ball.apply_impulse (B : Ball) (t : ℝ) (dx dv da dP dF : Vec2) : Ball :=
  let da' := da + vdiv dF B.m
  let dv' := dv + vdiv dP B.m
  { B with
    a := B.a + da'
    v := B.v - t • da' + dv'
    x := B.x + t • (t • vdiv da' 2 - dv') + dx }

/-- `Ball.apply_state(t, x?, v?, a?, P?, F?)` from `ball.py`: for each supplied
component the delta is computed as `self.<comp>_at(t) - <supplied>`, then
`apply_impulse` is called. -/
def Ball.apply_state (B : Ball) (t : ℝ)
    (x? v? a? P? F? : Option Vec2) : Ball :=
  let dx := match x? with | none => vec_zero | some xv => B.x_at t - xv
  let dv := match v? with | none => vec_zero | some vv => B.v_at t - vv
  let da := match a? with | none => vec_zero | some av => B.a_at t - av
  let dP := match P? with | none => vec_zero | some Pv => B.P_at t - Pv
  let dF := match F? with | none => vec_zero | some Fv => B.F_at t - Fv
  B.apply_impulse t dx dv da dP dF

/-- `vec_zero` is the zero of the product group on `Vec2`. -/
theorem vec_zero_eq_zero : vec_zero = (0 : Vec2) := rfl

/-- Dividing the zero vector by any scalar gives the zero vector. -/
theorem vdiv_zero (c : ℝ) : vdiv (0 : Vec2) c = 0 := by
  simp [vdiv]

/-- Shared helper: `apply_impulse` shifts position at the impulse time by `dx`. -/
theorem x_at_apply_impulse (B : Ball) (t : ℝ) (dx dv da dP dF : Vec2) :
    (B.apply_impulse t dx dv da dP dF).x_at t = B.x_at t + dx := by
  obtain ⟨⟨x1, x2⟩, ⟨v1, v2⟩, ⟨a1, a2⟩, r, m, b⟩ := B
  obtain ⟨dx1, dx2⟩ := dx; obtain ⟨dv1, dv2⟩ := dv; obtain ⟨da1, da2⟩ := da
  obtain ⟨dP1, dP2⟩ := dP; obtain ⟨dF1, dF2⟩ := dF
  simp only [Ball.apply_impulse, Ball.x_at, vdiv, Prod.smul_mk, Prod.mk_add_mk,
    Prod.mk_sub_mk, smul_eq_mul, Prod.mk.injEq]
  constructor <;> ring

/-- Shared helper: `apply_impulse` shifts velocity at the impulse time by
`dv + dP/m`. -/
theorem v_at_apply_impulse (B : Ball) (t : ℝ) (dx dv da dP dF : Vec2) :
    (B.apply_impulse t dx dv da dP dF).v_at t = B.v_at t + (dv + vdiv dP B.m) := by
  obtain ⟨⟨x1, x2⟩, ⟨v1, v2⟩, ⟨a1, a2⟩, r, m, b⟩ := B
  obtain ⟨dx1, dx2⟩ := dx; obtain ⟨dv1, dv2⟩ := dv; obtain ⟨da1, da2⟩ := da
  obtain ⟨dP1, dP2⟩ := dP; obtain ⟨dF1, dF2⟩ := dF
  simp only [Ball.apply_impulse, Ball.v_at, vdiv, Prod.smul_mk, Prod.mk_add_mk,
    Prod.mk_sub_mk, smul_eq_mul, Prod.mk.injEq]
  constructor <;> ring

/-- Shared helper: `apply_impulse` shifts acceleration by `da + dF/m`. -/
theorem a_at_apply_impulse (B : Ball) (t : ℝ) (dx dv da dP dF : Vec2) :
    (B.apply_impulse t dx dv da dP dF).a_at t = B.a_at t + (da + vdiv dF B.m) := by
  obtain ⟨⟨x1, x2⟩, ⟨v1, v2⟩, ⟨a1, a2⟩, r, m, b⟩ := B
  obtain ⟨dx1, dx2⟩ := dx; obtain ⟨dv1, dv2⟩ := dv; obtain ⟨da1, da2⟩ := da
  obtain ⟨dP1, dP2⟩ := dP; obtain ⟨dF1, dF2⟩ := dF
  simp only [Ball.apply_impulse, Ball.a_at, vdiv, Prod.smul_mk, Prod.mk_add_mk,
    Prod.mk_sub_mk, smul_eq_mul, Prod.mk.injEq]

/-- Claim C1: `apply_impulse(t, dx, dv, da, dP, dF)` shifts the trajectory at
time `t` by exactly `dx` in position, `dv + dP/m` in velocity, and
`da + dF/m` in acceleration; in particular an impulse supplying only `dx`
leaves `v_at(t)` and `a_at(t)` unchanged, one supplying only `dv` leaves
`x_at(t)` and `a_at(t)` unchanged, and one supplying only `da` leaves
`x_at(t)` and `v_at(t)` unchanged. -/
theorem apply_impulse_shifts_exactly (B : Ball) (t : ℝ) (dx dv da dP dF : Vec2) :
    ((B.apply_impulse t dx dv da dP dF).x_at t = B.x_at t + dx
      ∧ (B.apply_impulse t dx dv da dP dF).v_at t = B.v_at t + (dv + vdiv dP B.m)
      ∧ (B.apply_impulse t dx dv da dP dF).a_at t = B.a_at t + (da + vdiv dF B.m))
    ∧ ((B.apply_impulse t dx vec_zero vec_zero vec_zero vec_zero).v_at t = B.v_at t
      ∧ (B.apply_impulse t dx vec_zero vec_zero vec_zero vec_zero).a_at t = B.a_at t)
    ∧ ((B.apply_impulse t vec_zero dv vec_zero vec_zero vec_zero).x_at t = B.x_at t
      ∧ (B.apply_impulse t vec_zero dv vec_zero vec_zero vec_zero).a_at t = B.a_at t)
    ∧ ((B.apply_impulse t vec_zero vec_zero da vec_zero vec_zero).x_at t = B.x_at t
      ∧ (B.apply_impulse t vec_zero vec_zero da vec_zero vec_zero).v_at t = B.v_at t) := by
  refine ⟨⟨x_at_apply_impulse B t dx dv da dP dF, v_at_apply_impulse B t dx dv da dP dF,
    a_at_apply_impulse B t dx dv da dP dF⟩, ?_, ?_, ?_⟩ <;>
    simp [x_at_apply_impulse, v_at_apply_impulse, a_at_apply_impulse,
      vdiv_zero, vec_zero_eq_zero]

/-- Claim C2 (failing input): the source computes each `apply_state` delta as
`current − target` instead of `target − current`, so on the default ball at
`t = 0` requesting `x = (1, 0)` yields `x_at(0) = (-1, 0)`, the reflection of
the target about the current position, not the target `(1, 0)` itself. -/
theorem apply_state_reflects_target :
    (Ball.default.apply_state 0 (some (1, 0)) none none none none).x_at 0 = ((-1 : ℝ), (0 : ℝ))
    ∧ ((-1 : ℝ), (0 : ℝ)) ≠ ((1 : ℝ), (0 : ℝ)) := by
  constructor
  · simp only [Ball.apply_state, Ball.apply_impulse, Ball.x_at, Ball.v_at, Ball.a_at,
      Ball.P_at, Ball.F_at, Ball.default, vdiv, vec_zero,
      Prod.smul_mk, Prod.mk_add_mk, Prod.mk_sub_mk, smul_eq_mul, Prod.mk.injEq]
    constructor <;> norm_num
  · intro h
    have h1 := congrArg Prod.fst h
    norm_num at h1

/-- `CollisionImpulse` from `impulse.py`: a value triple `(t, dx, dv)`. -/
structure CollisionImpulse where
  t : ℝ
  dx : Vec2
  dv : Vec2

/-- `CollisionImpulse.with_restitution(e)`: `dv' = dv * (1 + e)`. -/
def CollisionImpulse.with_restitution (I : CollisionImpulse) (e : ℝ) : CollisionImpulse :=
  { I with dv := (1 + e) • I.dv }

/-- `CollisionImpulse.__neg__`: negate both deltas. -/
def CollisionImpulse.neg (I : CollisionImpulse) : CollisionImpulse :=
  { I with dx := -I.dx, dv := -I.dv }

/-- `CollisionImpulse.split(m1, m2)` restricted to finite masses: `np.isinf` is
identically false on real scalars, so of the source's three branches only the
final one remains (`denom = m1 + m2`, `f1 = -m2/denom`, `f2 = m1/denom`); the
infinite-mass branches are modelled by `Fsplit` in the IEEE-value model below. -/
def CollisionImpulse.split (I : CollisionImpulse) (m1 m2 : ℝ) :
    CollisionImpulse × CollisionImpulse :=
  let denom := m1 + m2
  let f1 := -m2 / denom
  let f2 := m1 / denom
  ({ I with dx := f1 • I.dx, dv := f1 • I.dv },
   { I with dx := f2 • I.dx, dv := f2 • I.dv })

/-- `Ball.get_collision_impulse(other, t)` from `ball.py`:
`dx = x * (1 - r/|x|)` and `dv = (v·x / x·x) * x` on the relative state at `t`.
The relative acceleration the source computes is unused there and omitted; the
`warn` on a nonzero `dx` is a diagnostic with no effect on the value. -/
def Ball.get_collision_impulse (b1 b2 : Ball) (t : ℝ) : CollisionImpulse :=
  let x := b1.x_at t - b2.x_at t
  let v := b1.v_at t - b2.v_at t
  let r := b1.r + b2.r
  let dx := (1 - r / Real.sqrt (dot x x)) • x
  let dv := (dot v x / dot x x) • x
  ⟨t, dx, dv⟩

/-- `Ball.__add__(impulse)`: `apply_impulse(t=impulse.t, dx=impulse.dx,
dv=impulse.dv)` with the remaining deltas defaulted to zero. -/
def Ball.addImpulse (B : Ball) (I : CollisionImpulse) : Ball :=
  B.apply_impulse I.t I.dx I.dv vec_zero vec_zero vec_zero

/-- Claim C4: for two balls with positive (finite) masses in contact at `t`,
splitting the restitution-scaled collision impulse by mass and applying the
two halves leaves the total momentum `m₁·v₁(t) + m₂·v₂(t)` and the mass
centroid `(m₁·x₁(t) + m₂·x₂(t))/(m₁+m₂)` unchanged. -/
theorem collision_split_conserves_momentum_and_centroid
    (b1 b2 : Ball) (t e : ℝ) (hm1 : 0 < b1.m) (hm2 : 0 < b2.m)
    (hcontact : dot (b1.x_at t - b2.x_at t) (b1.x_at t - b2.x_at t) = (b1.r + b2.r) ^ 2) :
    b1.m • (b1.addImpulse
        (((b1.get_collision_impulse b2 t).with_restitution e).split b1.m b2.m).1).v_at t
      + b2.m • (b2.addImpulse
        (((b1.get_collision_impulse b2 t).with_restitution e).split b1.m b2.m).2).v_at t
      = b1.m • b1.v_at t + b2.m • b2.v_at t
    ∧ (b1.m + b2.m)⁻¹ • (b1.m • (b1.addImpulse
        (((b1.get_collision_impulse b2 t).with_restitution e).split b1.m b2.m).1).x_at t
      + b2.m • (b2.addImpulse
        (((b1.get_collision_impulse b2 t).with_restitution e).split b1.m b2.m).2).x_at t)
      = (b1.m + b2.m)⁻¹ • (b1.m • b1.x_at t + b2.m • b2.x_at t) := by
  clear hm1 hm2 hcontact
  obtain ⟨⟨x11, x12⟩, ⟨v11, v12⟩, ⟨a11, a12⟩, r1, m1, b1b⟩ := b1
  obtain ⟨⟨x21, x22⟩, ⟨v21, v22⟩, ⟨a21, a22⟩, r2, m2, b2b⟩ := b2
  simp only [Ball.addImpulse, Ball.get_collision_impulse, CollisionImpulse.with_restitution,
    CollisionImpulse.split, Ball.apply_impulse, Ball.x_at, Ball.v_at, Ball.a_at, dot, vdiv,
    vec_zero, Prod.smul_mk, Prod.mk_add_mk, Prod.mk_sub_mk, smul_eq_mul, Prod.mk.injEq]
  and_intros <;> ring

/-- Witness for C4 at the head-on unit-mass contact configuration of the
source's `test_collide`. -/
theorem collision_split_conserves_momentum_and_centroid_witness :
    (Ball.mk (1, 0) (-1, 0) (0, 0) 1 1 (0, 0)).m • ((Ball.mk (1, 0) (-1, 0) (0, 0) 1 1 (0, 0)).addImpulse
        ((((Ball.mk (1, 0) (-1, 0) (0, 0) 1 1 (0, 0)).get_collision_impulse
          (Ball.mk (-1, 0) (1, 0) (0, 0) 1 1 (0, 0)) 0).with_restitution 1).split
          (Ball.mk (1, 0) (-1, 0) (0, 0) 1 1 (0, 0)).m
          (Ball.mk (-1, 0) (1, 0) (0, 0) 1 1 (0, 0)).m).1).v_at 0
      + (Ball.mk (-1, 0) (1, 0) (0, 0) 1 1 (0, 0)).m • ((Ball.mk (-1, 0) (1, 0) (0, 0) 1 1 (0, 0)).addImpulse
        ((((Ball.mk (1, 0) (-1, 0) (0, 0) 1 1 (0, 0)).get_collision_impulse
          (Ball.mk (-1, 0) (1, 0) (0, 0) 1 1 (0, 0)) 0).with_restitution 1).split
          (Ball.mk (1, 0) (-1, 0) (0, 0) 1 1 (0, 0)).m
          (Ball.mk (-1, 0) (1, 0) (0, 0) 1 1 (0, 0)).m).2).v_at 0
      = (Ball.mk (1, 0) (-1, 0) (0, 0) 1 1 (0, 0)).m • (Ball.mk (1, 0) (-1, 0) (0, 0) 1 1 (0, 0)).v_at 0
      + (Ball.mk (-1, 0) (1, 0) (0, 0) 1 1 (0, 0)).m • (Ball.mk (-1, 0) (1, 0) (0, 0) 1 1 (0, 0)).v_at 0
    ∧ ((Ball.mk (1, 0) (-1, 0) (0, 0) 1 1 (0, 0)).m + (Ball.mk (-1, 0) (1, 0) (0, 0) 1 1 (0, 0)).m)⁻¹ •
        ((Ball.mk (1, 0) (-1, 0) (0, 0) 1 1 (0, 0)).m • ((Ball.mk (1, 0) (-1, 0) (0, 0) 1 1 (0, 0)).addImpulse
        ((((Ball.mk (1, 0) (-1, 0) (0, 0) 1 1 (0, 0)).get_collision_impulse
          (Ball.mk (-1, 0) (1, 0) (0, 0) 1 1 (0, 0)) 0).with_restitution 1).split
          (Ball.mk (1, 0) (-1, 0) (0, 0) 1 1 (0, 0)).m
          (Ball.mk (-1, 0) (1, 0) (0, 0) 1 1 (0, 0)).m).1).x_at 0
      + (Ball.mk (-1, 0) (1, 0) (0, 0) 1 1 (0, 0)).m • ((Ball.mk (-1, 0) (1, 0) (0, 0) 1 1 (0, 0)).addImpulse
        ((((Ball.mk (1, 0) (-1, 0) (0, 0) 1 1 (0, 0)).get_collision_impulse
          (Ball.mk (-1, 0) (1, 0) (0, 0) 1 1 (0, 0)) 0).with_restitution 1).split
          (Ball.mk (1, 0) (-1, 0) (0, 0) 1 1 (0, 0)).m
          (Ball.mk (-1, 0) (1, 0) (0, 0) 1 1 (0, 0)).m).2).x_at 0)
      = ((Ball.mk (1, 0) (-1, 0) (0, 0) 1 1 (0, 0)).m + (Ball.mk (-1, 0) (1, 0) (0, 0) 1 1 (0, 0)).m)⁻¹ •
        ((Ball.mk (1, 0) (-1, 0) (0, 0) 1 1 (0, 0)).m • (Ball.mk (1, 0) (-1, 0) (0, 0) 1 1 (0, 0)).x_at 0
      + (Ball.mk (-1, 0) (1, 0) (0, 0) 1 1 (0, 0)).m • (Ball.mk (-1, 0) (1, 0) (0, 0) 1 1 (0, 0)).x_at 0) :=
  collision_split_conserves_momentum_and_centroid
    (Ball.mk (1, 0) (-1, 0) (0, 0) 1 1 (0, 0)) (Ball.mk (-1, 0) (1, 0) (0, 0) 1 1 (0, 0)) 0 1
    (by norm_num) (by norm_num)
    (by simp only [Ball.x_at, vdiv, dot, Prod.smul_mk, Prod.mk_add_mk, Prod.mk_sub_mk,
          smul_eq_mul]
        norm_num)

/-!
## IEEE special-value model

Claim C5 is about the float special values `inf` and `NaN` that the real-number
idealisation above cannot express.  `F` models a double as either a finite
value (carried exactly as a rational: every finite double is rational), `+∞`,
`-∞`, or NaN, with the IEEE rules for the arithmetic the source performs;
signed zero is collapsed to the single zero.
-/

/-- A float value: finite, `+∞`, `-∞`, or NaN. -/
inductive F where
  | fin (q : ℚ)
  | inf
  | ninf
  | nan
deriving DecidableEq

/-- `np.isinf`: true exactly on the two infinities. -/
def F.isinf : F → Bool
  | inf => true
  | ninf => true
  | _ => false

/-- IEEE negation. -/
def F.neg : F → F
  | fin q => fin (-q)
  | inf => ninf
  | ninf => inf
  | nan => nan

/-- IEEE addition: NaN absorbs, `∞ + (-∞)` is NaN. -/
def F.add : F → F → F
  | nan, _ => nan
  | _, nan => nan
  | fin a, fin b => fin (a + b)
  | fin _, inf => inf
  | inf, fin _ => inf
  | fin _, ninf => ninf
  | ninf, fin _ => ninf
  | inf, inf => inf
  | ninf, ninf => ninf
  | inf, ninf => nan
  | ninf, inf => nan

/-- IEEE subtraction, as addition of the negation. -/
def F.sub (a b : F) : F := a.add b.neg

/-- IEEE multiplication: NaN absorbs, `0 * ∞` is NaN. -/
def F.mul : F → F → F
  | nan, _ => nan
  | _, nan => nan
  | fin a, fin b => fin (a * b)
  | fin a, inf => if 0 < a then inf else if a < 0 then ninf else nan
  | inf, fin a => if 0 < a then inf else if a < 0 then ninf else nan
  | fin a, ninf => if 0 < a then ninf else if a < 0 then inf else nan
  | ninf, fin a => if 0 < a then ninf else if a < 0 then inf else nan
  | inf, inf => inf
  | inf, ninf => ninf
  | ninf, inf => ninf
  | ninf, ninf => inf

/-- IEEE division: NaN absorbs, `∞/∞` is NaN, `0/0` is NaN, finite/`∞` is 0. -/
def F.div : F → F → F
  | nan, _ => nan
  | _, nan => nan
  | fin a, fin b =>
      if b = 0 then (if a = 0 then nan else if 0 < a then inf else ninf) else fin (a / b)
  | fin _, inf => fin 0
  | fin _, ninf => fin 0
  | inf, fin b => if 0 ≤ b then inf else ninf
  | ninf, fin b => if 0 ≤ b then ninf else inf
  | inf, inf => nan
  | inf, ninf => nan
  | ninf, inf => nan
  | ninf, ninf => nan

/-- Componentwise vector addition on float 2-vectors. -/
def Fvec.add (a b : F × F) : F × F := (a.1.add b.1, a.2.add b.2)

/-- Componentwise vector subtraction on float 2-vectors. -/
def Fvec.sub (a b : F × F) : F × F := (a.1.sub b.1, a.2.sub b.2)

/-- Scalar times vector, broadcast componentwise. -/
def Fvec.smul (c : F) (v : F × F) : F × F := (c.mul v.1, c.mul v.2)

/-- Vector divided by scalar, broadcast componentwise. -/
def Fvec.div (v : F × F) (c : F) : F × F := (v.1.div c, v.2.div c)

/-- Componentwise negation. -/
def Fvec.neg (v : F × F) : F × F := (v.1.neg, v.2.neg)

/-- The float zero vector. -/
def Fvec.zero : F × F := (F.fin 0, F.fin 0)

/-- `CollisionImpulse` over float values. -/
structure FImpulse where
  t : F
  dx : F × F
  dv : F × F

/-- `CollisionImpulse.__neg__` over float values. -/
def FImpulse.neg (I : FImpulse) : FImpulse :=
  { I with dx := Fvec.neg I.dx, dv := Fvec.neg I.dv }

/-- `CollisionImpulse.split(m1, m2)` from `impulse.py` over float values, with
all three branches of the source: one infinite mass short-circuits, otherwise
`f1 = -m2/(m1+m2)` and `f2 = m1/(m1+m2)` scale the two halves (and with both
masses infinite those factors are `∞/∞ = NaN`). -/
def Fsplit (I : FImpulse) (m1 m2 : F) : FImpulse × FImpulse :=
  if m1.isinf && !m2.isinf then
    ({ I with dx := Fvec.zero, dv := Fvec.zero }, I)
  else if !m1.isinf && m2.isinf then
    (I.neg, { I with dx := Fvec.zero, dv := Fvec.zero })
  else
    let denom := m1.add m2
    let f1 := (m2.neg).div denom
    let f2 := m1.div denom
    ({ I with dx := Fvec.smul f1 I.dx, dv := Fvec.smul f1 I.dv },
     { I with dx := Fvec.smul f2 I.dx, dv := Fvec.smul f2 I.dv })

/-- `Ball` over float values. -/
structure FBall where
  x : F × F
  v : F × F
  a : F × F
  r : F
  m : F
  b : F × F

/-- `Ball.apply_impulse` over float values, the same update equations as the
real-number `Ball.apply_impulse` above. -/
def FBall.apply_impulse (B : FBall) (t : F) (dx dv da dP dF : F × F) : FBall :=
  let da' := Fvec.add da (Fvec.div dF B.m)
  let dv' := Fvec.add dv (Fvec.div dP B.m)
  { B with
    a := Fvec.add B.a da'
    v := Fvec.add (Fvec.sub B.v (Fvec.smul t da')) dv'
    x := Fvec.add (Fvec.add B.x (Fvec.smul t (Fvec.sub (Fvec.smul t (Fvec.div da' (F.fin 2))) dv'))) dx }

/-- `Ball.__add__(impulse)` over float values. -/
def FBall.addImpulse (B : FBall) (I : FImpulse) : FBall :=
  B.apply_impulse I.t I.dx I.dv Fvec.zero Fvec.zero Fvec.zero

/-- NaN absorbs on the right of addition. -/
theorem F.add_nan (a : F) : a.add F.nan = F.nan := by cases a <;> rfl

/-- NaN absorbs on the left of addition. -/
theorem F.nan_add (a : F) : F.nan.add a = F.nan := by cases a <;> rfl

/-- NaN absorbs on the left of multiplication. -/
theorem F.nan_mul (a : F) : F.nan.mul a = F.nan := by cases a <;> rfl

/-- With both masses infinite, `split` makes every delta component NaN. -/
theorem Fsplit_inf_inf (I : FImpulse) :
    Fsplit I F.inf F.inf
      = (⟨I.t, (F.nan, F.nan), (F.nan, F.nan)⟩, ⟨I.t, (F.nan, F.nan), (F.nan, F.nan)⟩) := by
  obtain ⟨t, ⟨d1, d2⟩, ⟨e1, e2⟩⟩ := I
  simp [Fsplit, F.isinf, Fvec.smul, F.neg, F.add, F.div, F.nan_mul]

/-- NaN absorbs on the right of multiplication. -/
theorem F.mul_nan (a : F) : a.mul F.nan = F.nan := by cases a <;> rfl

/-- Claim C5: splitting an impulse with `m₁ = ∞` and `m₂` finite returns a
zero first half and the impulse itself as second half; the symmetric case
returns the negated impulse and a zero half; with both masses infinite every
`dx`/`dv` component of both halves is NaN; and applying those NaN halves
through `apply_impulse` is a total operation that NaN-taints the ball's
position and velocity rather than failing. -/
theorem split_infinite_masses :
    (∀ (t : F) (dx dv : F × F) (q : ℚ),
        Fsplit ⟨t, dx, dv⟩ F.inf (F.fin q) = (⟨t, Fvec.zero, Fvec.zero⟩, ⟨t, dx, dv⟩))
    ∧ (∀ (t : F) (dx dv : F × F) (q : ℚ),
        Fsplit ⟨t, dx, dv⟩ (F.fin q) F.inf
          = (⟨t, Fvec.neg dx, Fvec.neg dv⟩, ⟨t, Fvec.zero, Fvec.zero⟩))
    ∧ (∀ I : FImpulse,
        ((Fsplit I F.inf F.inf).1.dx.1 = F.nan ∧ (Fsplit I F.inf F.inf).1.dx.2 = F.nan
          ∧ (Fsplit I F.inf F.inf).1.dv.1 = F.nan ∧ (Fsplit I F.inf F.inf).1.dv.2 = F.nan)
        ∧ ((Fsplit I F.inf F.inf).2.dx.1 = F.nan ∧ (Fsplit I F.inf F.inf).2.dx.2 = F.nan
          ∧ (Fsplit I F.inf F.inf).2.dv.1 = F.nan ∧ (Fsplit I F.inf F.inf).2.dv.2 = F.nan))
    ∧ (∀ (B : FBall) (I : FImpulse),
        ((B.addImpulse (Fsplit I F.inf F.inf).1).x.1 = F.nan
          ∧ (B.addImpulse (Fsplit I F.inf F.inf).1).x.2 = F.nan
          ∧ (B.addImpulse (Fsplit I F.inf F.inf).1).v.1 = F.nan
          ∧ (B.addImpulse (Fsplit I F.inf F.inf).1).v.2 = F.nan)
        ∧ ((B.addImpulse (Fsplit I F.inf F.inf).2).x.1 = F.nan
          ∧ (B.addImpulse (Fsplit I F.inf F.inf).2).x.2 = F.nan
          ∧ (B.addImpulse (Fsplit I F.inf F.inf).2).v.1 = F.nan
          ∧ (B.addImpulse (Fsplit I F.inf F.inf).2).v.2 = F.nan)) := by
  refine ⟨?_, ?_, ?_, ?_⟩
  · intro t dx dv q
    simp [Fsplit, F.isinf]
  · intro t dx dv q
    simp [Fsplit, F.isinf, FImpulse.neg]
  · intro I
    simp [Fsplit_inf_inf]
  · intro B I
    simp only [Fsplit_inf_inf, FBall.addImpulse, FBall.apply_impulse, Fvec.add, Fvec.sub,
      Fvec.smul, Fvec.div, F.add_nan, F.nan_add]
    simp

/-!
## Universe and views

`uuid4` generates a fresh random identifier for every `add`; its role — a key
never seen before — is modelled by a deterministic fresh-key supply
(`next_key` counter).  Dict iteration order and set iteration order are
determinised as list order.
-/

/-- Opaque body key (`uuid.UUID` in the source, modelled as a counter-supplied
natural number). -/
abbrev Key : Type := ℕ

/-- Lookup in an association list, as `contents[key]` (first match; keys are
unique in reachable states). -/
def lookupKey (l : List (Key × Ball)) (k : Key) : Option Ball :=
  match l with
  | [] => none
  | (k', b) :: rest => if k' = k then some b else lookupKey rest k

/-- `contents[key] = value` on a present key: replace the stored body. -/
def updateKey (l : List (Key × Ball)) (k : Key) (b : Ball) : List (Key × Ball) :=
  l.map (fun p => if p.1 = k then (k, b) else p)

/-- The key list of a contents dict. -/
def keysOf (l : List (Key × Ball)) : List Key := l.map Prod.fst

/-- `Universe` from `universe.py`: current time `t`, `contents` dict, and the
`modified` key set (modelled as a duplicate-free list), plus the fresh-key
supply standing in for `uuid4`. -/
structure Universe where
  t : ℝ
  contents : List (Key × Ball)
  modified : List Key
  next_key : Key

/-- `Universe.add(obj)`: draw a fresh key (`mk_key` / `uuid4`), store the body
under it, and return the view, which is bound to the new key.  The base class
does not touch `modified`. -/
def Universe.add (u : Universe) (obj : Ball) : Universe × Key :=
  let key := u.next_key
  ({ u with contents := u.contents ++ [(key, obj)], next_key := key + 1 }, key)

/-- The `ball` property of `BallUniverseView` (`universe.py`): its getter
returns `contents[key]`, but the decorated setter is `def _(self, value)`, so
the setter got bound to the class attribute `_` and the property named `ball`
itself has no setter. -/
def ballUniverseView_ball_hasSetter : Bool := false

/-- Body of the function bound to `_` in `universe.py` — what the `ball`
setter was evidently meant to do: replace the stored body and mark the key
modified. -/
def ballUniverseView_setBall (u : Universe) (k : Key) (value : Ball) : Universe :=
  { u with contents := updateKey u.contents k value, modified := u.modified.insert k }

/-- Result of a Python attribute assignment on a view. -/
inductive SetOutcome where
  | ok (u : Universe)
  | keyError
  | attributeError

/-- `ImpulseableVarDescriptor.__set__` for the `x` attribute of a
`BallUniverseView` (`ballview.py` dispatching into `universe.py`):
`modify_inplace` is falsy (that property's body is the bare expression
`False`, returning `None`), so the descriptor evaluates
`obj.ball.apply_state(t=obj.t, x=value)` and then executes
`obj.ball = <new ball>`; the assignment dispatches to the `ball` property,
which has no setter, so it raises `AttributeError`. -/
def viewSetX (u : Universe) (k : Key) (value : Vec2) : SetOutcome :=
  match lookupKey u.contents k with
  | none => SetOutcome.keyError
  | some ball =>
      let newBall := ball.apply_state u.t (some value) none none none none
      if ballUniverseView_ball_hasSetter then
        SetOutcome.ok (ballUniverseView_setBall u k newBall)
      else
        SetOutcome.attributeError

/-- Claim C3 (failing behaviour): writing `x` through a view obtained from
`Universe.add`/`Universe.get` raises `AttributeError` instead of replacing the
stored body and marking the key modified, because the `ball` setter of
`BallUniverseView` was registered under the attribute name `_`. -/
theorem view_write_raises_attribute_error (u : Universe) (k : Key) (value : Vec2)
    (B : Ball) (hk : lookupKey u.contents k = some B) :
    viewSetX u k value = SetOutcome.attributeError := by
  simp [viewSetX, hk, ballUniverseView_ball_hasSetter]

/-- Witness for C3 on a concrete universe holding one default ball. -/
theorem view_write_raises_attribute_error_witness :
    viewSetX ⟨0, [(0, Ball.default)], [], 1⟩ 0 (1, 0) = SetOutcome.attributeError :=
  view_write_raises_attribute_error ⟨0, [(0, Ball.default)], [], 1⟩ 0 (1, 0) Ball.default
    (by simp [lookupKey])

/-!
## Collision heap

`CollisionHeap` from `timeline.py`.  The `heapq` binary heap is refined as a
list kept sorted by predicted time (`CollisionHeapItem` is `order=True` with
only `t` participating in comparison, so heap order is exactly time order,
ties arbitrary); `heappush` becomes ordered insertion and `heappop` takes the
head.  The `_map` is kept implicit: in every reachable state it holds exactly
the keys of the non-void items, of which there is at most one per pair.
Predicted times are `Option ℝ` with `none` standing for `np.inf`
(`np.isfinite` is the `isSome` test).
-/

/-- Predicted time: a finite time, or `none` for `np.inf`. -/
abbrev PTime : Type := Option ℝ

/-- Unordered pair of body keys, stored sorted
(`CollisionHeapKey.__post_init__`). -/
def mkHeapKey (k1 k2 : Key) : Key × Key := if k1 ≤ k2 then (k1, k2) else (k2, k1)

/-- A stored heap item: pair key, void flag, and the (finite) predicted time. -/
structure CollisionHeapItem where
  key : Key × Key
  void : Bool
  t : ℝ

/-- Heap comparison: by predicted time only. -/
def itemLE (a b : CollisionHeapItem) : Prop := a.t ≤ b.t

instance : DecidableRel itemLE := fun a b => inferInstanceAs (Decidable (a.t ≤ b.t))

instance : IsTotal CollisionHeapItem itemLE := ⟨fun a b => le_total a.t b.t⟩

instance : IsTrans CollisionHeapItem itemLE := ⟨fun _ _ _ hab hbc => le_trans hab hbc⟩

/-- `CollisionHeap`: item list (`_heap`) and the two counters. -/
structure CollisionHeap where
  heap : List CollisionHeapItem
  void_count : ℤ
  entry_count : ℤ

/-- `key in self` (backed by `_map`): a non-void item for the pair exists. -/
def CollisionHeap.containsKey (h : CollisionHeap) (key : Key × Key) : Bool :=
  h.heap.any (fun it => it.key == key && !it.void)

/-- Mark the (unique) live item for a pair void, as the source does through
the `_map` reference into the heap list. -/
def voidKey (l : List CollisionHeapItem) (key : Key × Key) :
    List CollisionHeapItem :=
  l.map (fun it => if it.key = key ∧ it.void = false then { it with void := true } else it)

/-- `CollisionHeap._push` (fed by `push` with the freshly predicted time): if
the pair has a live entry, void it and bump `void_count`; then, only if the
predicted time is finite, insert a new live item and bump `entry_count`. -/
def CollisionHeap.push (h : CollisionHeap) (key : Key × Key) (tval : PTime) :
    CollisionHeap :=
  let h1 := if h.containsKey key
    then { h with heap := voidKey h.heap key, void_count := h.void_count + 1 }
    else h
  match tval with
  | none => h1
  | some r =>
      { h1 with heap := h1.heap.orderedInsert itemLE ⟨key, false, r⟩,
                entry_count := h1.entry_count + 1 }

/-- `len(self)`: `entry_count - void_count`. -/
def CollisionHeap.len (h : CollisionHeap) : ℤ := h.entry_count - h.void_count

/-- `CollisionHeap._pop`: repeatedly `heappop`, decrementing `entry_count`
(and `void_count` for void items), until a live item is returned or the heap
is exhausted (in which case the Python function returns `None`).  Returns
`(popped item?, remaining list, entry_count, void_count)`. -/
def popAux : List CollisionHeapItem → ℤ → ℤ →
    Option CollisionHeapItem × List CollisionHeapItem × ℤ × ℤ
  | [], e, v => (none, [], e, v)
  | it :: rest, e, v =>
      if it.void then popAux rest (e - 1) (v - 1)
      else (some it, rest, e - 1, v)

/-- `_pop` as a heap-to-heap operation. -/
def CollisionHeap.popItem (h : CollisionHeap) :
    Option CollisionHeapItem × CollisionHeap :=
  let r := popAux h.heap h.entry_count h.void_count
  (r.1, ⟨r.2.1, r.2.2.2, r.2.2.1⟩)

/-- `CollisionHeap.pop`: `item = self._pop(); return item.t, item.key.k1,
item.key.k2`.  When `_pop` exhausts the heap it produces no item and the
attribute accesses fail, embedded as `none`. -/
def CollisionHeap.pop (h : CollisionHeap) :
    Option (ℝ × Key × Key × CollisionHeap) :=
  let r := popAux h.heap h.entry_count h.void_count
  match r.1 with
  | none => none
  | some it => some (it.t, it.key.1, it.key.2, ⟨r.2.1, r.2.2.2, r.2.2.1⟩)

mutual

/-- `CollisionHeap.next`, faithfully: `while self._heap and
self._heap[0].void: self._pop()`, then return the top time or `np.inf`.  Note
that each `_pop()` call made to skip a void prefix also removes (and
discards) the first *live* item that follows it; `nextAux` is the state on
entry to the `while` test, `nextPopAux` the state inside a running `_pop`
whose return value is discarded. -/
def nextAux : List CollisionHeapItem → ℤ → ℤ →
    PTime × List CollisionHeapItem × ℤ × ℤ
  | [], e, v => (none, [], e, v)
  | it :: rest, e, v =>
      if it.void then nextPopAux rest (e - 1) (v - 1)
      else (some it.t, it :: rest, e, v)

/-- See `nextAux`. -/
def nextPopAux : List CollisionHeapItem → ℤ → ℤ →
    PTime × List CollisionHeapItem × ℤ × ℤ
  | [], e, v => (none, [], e, v)
  | it :: rest, e, v =>
      if it.void then nextPopAux rest (e - 1) (v - 1)
      else nextAux rest (e - 1) v

end

/-- `next()` as a heap-to-heap operation returning the peeked time. -/
def CollisionHeap.nextClean (h : CollisionHeap) : PTime × CollisionHeap :=
  let r := nextAux h.heap h.entry_count h.void_count
  (r.1, ⟨r.2.1, r.2.2.2, r.2.2.1⟩)

/-- On an all-void list, `_pop` exhausts the heap producing nothing. -/
theorem popAux_all_void (l : List CollisionHeapItem) :
    ∀ e v : ℤ, (∀ it ∈ l, it.void = true) →
      (popAux l e v).1 = none ∧ (popAux l e v).2.1 = [] := by
  induction l with
  | nil => intro e v _; exact ⟨rfl, rfl⟩
  | cons it rest ih =>
      intro e v hall
      have hv : it.void = true := hall it (List.mem_cons_self it rest)
      have hrest : ∀ x ∈ rest, x.void = true := fun x hx => hall x (List.mem_cons_of_mem it hx)
      simp only [popAux, hv, if_true]
      exact ih (e - 1) (v - 1) hrest

/-- On an all-void list the inner `_pop` loop of `next` exhausts the heap
without finding a live item. -/
theorem nextPopAux_all_void (l : List CollisionHeapItem) :
    ∀ e v : ℤ, (∀ it ∈ l, it.void = true) →
      (nextPopAux l e v).1 = none ∧ (nextPopAux l e v).2.1 = [] := by
  induction l with
  | nil => intro e v _; exact ⟨rfl, rfl⟩
  | cons it rest ih =>
      intro e v hall
      have hv : it.void = true := hall it (List.mem_cons_self it rest)
      simp only [nextPopAux, hv, if_true]
      exact ih (e - 1) (v - 1) (fun x hx => hall x (List.mem_cons_of_mem it hx))

/-- Claim C10: on a heap with no live entries, `pop` fails to produce an
event (it does not return an `(∞, k₁, k₂)` sentinel: `_pop` exhausts the heap
producing no item and the attribute accesses in `pop` fail), while
`next`/peek returns `np.inf`. -/
theorem pop_on_dead_heap (h : CollisionHeap)
    (hall : ∀ it ∈ h.heap, it.void = true) :
    (h.popItem).1 = none ∧ h.pop = none ∧ (h.nextClean).1 = none := by
  have hp := popAux_all_void h.heap h.entry_count h.void_count hall
  refine ⟨hp.1, ?_, ?_⟩
  · simp only [CollisionHeap.pop, CollisionHeap.popItem]
    rw [show (popAux h.heap h.entry_count h.void_count).1 = none from hp.1]
  · simp only [CollisionHeap.nextClean]
    cases hl : h.heap with
    | nil => simp [nextAux, hl]
    | cons it rest =>
        have hv : it.void = true := hall it (hl ▸ List.mem_cons_self it rest)
        have hrest : ∀ x ∈ rest, x.void = true := fun x hx =>
          hall x (hl ▸ List.mem_cons_of_mem it hx)
        simp only [nextAux, hv, if_true]
        exact (nextPopAux_all_void rest (h.entry_count - 1) (h.void_count - 1) hrest).1

/-- Witness for C10 on a one-element heap whose only item is void. -/
theorem pop_on_dead_heap_witness :
    ((CollisionHeap.mk [⟨(0, 1), true, 5⟩] 1 1).popItem).1 = none
    ∧ (CollisionHeap.mk [⟨(0, 1), true, 5⟩] 1 1).pop = none
    ∧ ((CollisionHeap.mk [⟨(0, 1), true, 5⟩] 1 1).nextClean).1 = none :=
  pop_on_dead_heap (CollisionHeap.mk [⟨(0, 1), true, 5⟩] 1 1)
    (by intro it hit; simp only [List.mem_singleton] at hit; rw [hit])

/-- Claim C7 (behaviour at the failing input): pushing `t_a = 1` then
`t_b = 2` for the same pair leaves exactly one live entry, carrying `t_b`,
and `len()` is unchanged by the second push; a push with `+∞` stores no live
entry.  But *peek* (the source's `next()`) then returns `+∞` and empties the
heap: skipping the voided `t_a` entry goes through `_pop`, which also removes
the live `t_b` entry. -/
theorem heap_supersede_then_peek :
    ((((CollisionHeap.mk [] 0 0).push (0, 1) (some 1)).push (0, 1) (some 2)).heap
        = [⟨(0, 1), true, 1⟩, ⟨(0, 1), false, 2⟩]
      ∧ (((CollisionHeap.mk [] 0 0).push (0, 1) (some 1)).push (0, 1) (some 2)).len
        = ((CollisionHeap.mk [] 0 0).push (0, 1) (some 1)).len)
    ∧ (((CollisionHeap.mk [] 0 0).push (0, 1) (some 1)).push (0, 1) none).heap
        = [⟨(0, 1), true, 1⟩]
    ∧ (((((CollisionHeap.mk [] 0 0).push (0, 1) (some 1)).push (0, 1) (some 2)).nextClean).1
        = none
      ∧ ((((CollisionHeap.mk [] 0 0).push (0, 1) (some 1)).push (0, 1) (some 2)).nextClean).2.heap
        = []) := by
  have h1 : (CollisionHeap.mk [] 0 0).push (0, 1) (some 1)
      = CollisionHeap.mk [⟨(0, 1), false, 1⟩] 0 1 := by
    norm_num [CollisionHeap.push, CollisionHeap.containsKey, List.orderedInsert]
  have h2 : ((CollisionHeap.mk [] 0 0).push (0, 1) (some 1)).push (0, 1) (some 2)
      = CollisionHeap.mk [⟨(0, 1), true, 1⟩, ⟨(0, 1), false, 2⟩] 1 2 := by
    rw [h1]
    norm_num [CollisionHeap.push, CollisionHeap.containsKey, voidKey,
      List.orderedInsert, itemLE]
  have h3 : ((CollisionHeap.mk [] 0 0).push (0, 1) (some 1)).push (0, 1) none
      = CollisionHeap.mk [⟨(0, 1), true, 1⟩] 1 1 := by
    rw [h1]
    norm_num [CollisionHeap.push, CollisionHeap.containsKey, voidKey]
  rw [h2, h3, h1]
  norm_num [CollisionHeap.len, CollisionHeap.nextClean, nextAux, nextPopAux]

/-!
## Timeline

`Timeline` from `timeline.py` extends `Universe` with the collision heap.
Key lookups that would raise `KeyError` in Python are embedded as `none`
results, and the unbounded `while` loop of `advance_to` takes explicit fuel.
-/

/-- The collision polynomial of two balls, with the coefficients of
`Ball.compute_collision_times` (built from the virtual-`t=0` state
variables). -/
def collisionPoly (b1 b2 : Ball) (s : ℝ) : ℝ :=
  let x := b1.x - b2.x
  let v := b1.v - b2.v
  let a := b1.a - b2.a
  let r := b1.r + b2.r
  (dot a a / 4) * s ^ 4 + dot v a * s ^ 3 + (dot x a + dot v v) * s ^ 2
    + (dot x v * 2) * s + (dot x x - r * r)

/-- `util.next_time_after(roots, t)`: the smallest real element of `roots`
strictly greater than `t`, or `np.inf` (`none`) if none qualifies.
`np.poly1d(...).roots` returns all complex roots and `np.real_if_close`
accepts the real ones, so the real roots are exactly the zero set of the
collision polynomial; when that set has no least element above `t` (possible
only for the zero polynomial, which positive radii rule out) the model also
returns `none`. -/
def next_time_after (Z : Set ℝ) (t : ℝ) : PTime := by
  classical
  exact if h : ∃ s, s ∈ Z ∧ t < s ∧ ∀ s2 ∈ Z, t < s2 → s ≤ s2 then some h.choose else none

/-- `Ball.compute_next_collision_time(other, t)`. -/
def Ball.compute_next_collision_time (b1 b2 : Ball) (t : ℝ) : PTime :=
  next_time_after {s : ℝ | collisionPoly b1 b2 s = 0} t

/-- `Timeline`: a `Universe` plus the `future` collision heap. -/
structure Timeline extends Universe where
  future : CollisionHeap

/-- `CollisionHeap.push(timeline, k1, k2)`: build the sorted pair key, compute
the predicted time from the bodies at the universe's current time
(`CollisionHeapItem.__post_init__`), and `_push` it; a missing body is a
`KeyError`. -/
def Timeline.pushPair (T : Timeline) (h : CollisionHeap) (k1 k2 : Key) :
    Option CollisionHeap :=
  let key := mkHeapKey k1 k2
  match lookupKey T.contents key.1, lookupKey T.contents key.2 with
  | some b1, some b2 => some (h.push key (b1.compute_next_collision_time b2 T.t))
  | _, _ => none

/-- The inner `for k2 in unmodified` loop of `recompute_future`. -/
def pushAll (T : Timeline) (k1 : Key) : List Key → CollisionHeap → Option CollisionHeap
  | [], h => some h
  | k2 :: ks, h =>
      match T.pushPair h k1 k2 with
      | none => none
      | some h' => pushAll T k1 ks h'

/-- The `while self.modified` loop of `recompute_future`: pop a modified key,
push its pair with every currently unmodified key, then move it to the
unmodified set.  Only the heap changes; `contents` and `t` are read-only
here. -/
def recomputeAux (T : Timeline) : List Key → List Key → CollisionHeap → Option CollisionHeap
  | [], _, h => some h
  | k1 :: rest, unmod, h =>
      match pushAll T k1 unmod h with
      | none => none
      | some h' => recomputeAux T rest (k1 :: unmod) h'

/-- `self.contents.keys() - self.modified`. -/
def unmodifiedOf (T : Timeline) : List Key :=
  (keysOf T.contents).filter (fun k => decide (k ∉ T.modified))

/-- `Timeline.recompute_future`: run the loop above starting from the
modified set and the current unmodified keys; on return `modified` is empty. -/
def Timeline.recompute_future (T : Timeline) : Option Timeline :=
  match recomputeAux T T.modified (unmodifiedOf T) T.future with
  | none => none
  | some h => some { T with modified := [], future := h }

/-- The unordered pairs pushed by `recompute_future`, in push order: the same
loop skeleton as `recomputeAux`, recording `(k1, k2)` instead of pushing. -/
def recomputePairs : List Key → List Key → List (Key × Key)
  | [], _ => []
  | k1 :: rest, unmod => unmod.map (fun k2 => (k1, k2)) ++ recomputePairs rest (k1 :: unmod)

/-- Folding `pushPair` over a pair list (the heap effect of
`recompute_future`). -/
def pushPairsFold (T : Timeline) : List (Key × Key) → CollisionHeap → Option CollisionHeap
  | [], h => some h
  | p :: ps, h =>
      match T.pushPair h p.1 p.2 with
      | none => none
      | some h' => pushPairsFold T ps h'

/-- How many times an unordered pair occurs in a pair list. -/
def countPair (ps : List (Key × Key)) (a b : Key) : ℕ :=
  ps.countP (fun p => decide ((p.1 = a ∧ p.2 = b) ∨ (p.1 = b ∧ p.2 = a)))

/-- `Timeline.do_next_collision`: pop the next live event, fetch the two
bodies, build the restitution-scaled impulse, split it by mass, apply the two
halves, jump `t` to the event time, mark both keys modified, and recompute
the future. -/
def Timeline.do_next_collision (T : Timeline) : Option Timeline :=
  match T.future.pop with
  | none => none
  | some (t, k1, k2, fut) =>
      match lookupKey T.contents k1, lookupKey T.contents k2 with
      | some b1, some b2 =>
          let i := (b1.get_collision_impulse b2 t).with_restitution (dot b1.b b2.b)
          let s := i.split b1.m b2.m
          let b1' := b1.addImpulse s.1
          let b2' := b2.addImpulse s.2
          Timeline.recompute_future
            { T with
                contents := updateKey (updateKey T.contents k1 b1') k2 b2',
                t := t,
                modified := (T.modified.insert k1).insert k2,
                future := fut }
      | _, _ => none

/-- Result of `advance_to`: the `TimeTravelError` raise (carrying the state at
the moment of the raise), an out-of-fuel/internal-`KeyError` outcome, or
normal return with the final state. -/
inductive AdvanceResult where
  | timeTravel (T : Timeline)
  | stuck
  | ok (T : Timeline)

/-- The `while t > self.future.next(): self.do_next_collision()` loop of
`advance_to`, followed by `self.t = t`. -/
def advanceLoop : ℕ → Timeline → ℝ → AdvanceResult
  | 0, _, _ => AdvanceResult.stuck
  | fuel + 1, T, t =>
      let r := T.future.nextClean
      let T' := { T with future := r.2 }
      match r.1 with
      | some tn =>
          if tn < t then
            match T'.do_next_collision with
            | none => AdvanceResult.stuck
            | some T2 => advanceLoop fuel T2 t
          else AdvanceResult.ok { T' with t := t }
      | none => AdvanceResult.ok { T' with t := t }

/-- `Timeline.advance_to(t, allow_time_travel)`: raise `TimeTravelError` when
stepping backwards without permission, otherwise recompute stale predictions
if any and run the event loop. -/
def Timeline.advance_to (T : Timeline) (t : ℝ) (allow_time_travel : Bool) (fuel : ℕ) :
    AdvanceResult :=
  if allow_time_travel = false ∧ t < T.t then AdvanceResult.timeTravel T
  else
    match (if T.modified.isEmpty then some T else T.recompute_future) with
    | none => AdvanceResult.stuck
    | some T1 => advanceLoop fuel T1 t

/-- `Timeline.add(obj)`: `super().add(obj)` then mark the fresh key
modified. -/
def Timeline.add (T : Timeline) (obj : Ball) : Timeline × Key :=
  let r := T.toUniverse.add obj
  (⟨{ r.1 with modified := r.1.modified.insert r.2 }, T.future⟩, r.2)

/-- Appending a binding under a key absent from `l` makes lookup find it. -/
theorem lookupKey_append_fresh (l : List (Key × Ball)) (k : Key) (b : Ball)
    (hk : k ∉ keysOf l) : lookupKey (l ++ [(k, b)]) k = some b := by
  induction l with
  | nil => simp [lookupKey]
  | cons p rest ih =>
      have hne : p.1 ≠ k := by
        intro h
        exact hk (by simp [keysOf, h])
      have hk2 : k ∉ keysOf rest := fun h => hk (by simp [keysOf] at h ⊢; exact Or.inr h)
      cases p with
      | mk k' b' =>
          simp only [List.cons_append, lookupKey]
          rw [if_neg hne]
          exact ih hk2

/-- Claim C9, counterexample: the base `Universe.add` does *not* add the fresh
key to the modified set (`modified` stays empty on a fresh universe). -/
theorem universe_add_leaves_modified_unchanged :
    ((Universe.mk 0 [] [] 0).add Ball.default).2
      ∉ ((Universe.mk 0 [] [] 0).add Ball.default).1.modified := by
  simp [Universe.add]

/-- Claim C9 as amended: `Universe.add` assigns a fresh key not previously
present, stores the body under it and returns the view bound to that key, but
leaves the modified set untouched; it is the `Timeline.add` override that
additionally adds the fresh key to the modified set. -/
theorem add_assigns_fresh_key (u : Universe) (T : Timeline) (obj : Ball)
    (hu : ∀ k ∈ keysOf u.contents, k < u.next_key)
    (hT : ∀ k ∈ keysOf T.contents, k < T.next_key) :
    ((u.add obj).2 ∉ keysOf u.contents
      ∧ lookupKey (u.add obj).1.contents (u.add obj).2 = some obj
      ∧ (u.add obj).1.modified = u.modified)
    ∧ ((T.add obj).2 ∉ keysOf T.contents
      ∧ lookupKey (T.add obj).1.contents (T.add obj).2 = some obj
      ∧ (T.add obj).2 ∈ (T.add obj).1.modified) := by
  have hfu : u.next_key ∉ keysOf u.contents := fun h => lt_irrefl _ (hu _ h)
  have hfT : T.next_key ∉ keysOf T.contents := fun h => lt_irrefl _ (hT _ h)
  refine ⟨⟨hfu, ?_, rfl⟩, ⟨hfT, ?_, ?_⟩⟩
  · exact lookupKey_append_fresh u.contents u.next_key obj hfu
  · exact lookupKey_append_fresh T.contents T.next_key obj hfT
  · simp [Timeline.add, Universe.add, List.mem_insert_iff]

/-- Witness for the amended C9 on an empty universe and an empty timeline. -/
theorem add_assigns_fresh_key_witness :
    (((Universe.mk 0 [] [] 0).add Ball.default).2 ∉ keysOf (Universe.mk 0 [] [] 0).contents
      ∧ lookupKey ((Universe.mk 0 [] [] 0).add Ball.default).1.contents
          ((Universe.mk 0 [] [] 0).add Ball.default).2 = some Ball.default
      ∧ ((Universe.mk 0 [] [] 0).add Ball.default).1.modified = (Universe.mk 0 [] [] 0).modified)
    ∧ (((Timeline.mk ⟨0, [], [], 0⟩ ⟨[], 0, 0⟩).add Ball.default).2
          ∉ keysOf (Timeline.mk ⟨0, [], [], 0⟩ ⟨[], 0, 0⟩).contents
      ∧ lookupKey ((Timeline.mk ⟨0, [], [], 0⟩ ⟨[], 0, 0⟩).add Ball.default).1.contents
          ((Timeline.mk ⟨0, [], [], 0⟩ ⟨[], 0, 0⟩).add Ball.default).2 = some Ball.default
      ∧ ((Timeline.mk ⟨0, [], [], 0⟩ ⟨[], 0, 0⟩).add Ball.default).2
          ∈ ((Timeline.mk ⟨0, [], [], 0⟩ ⟨[], 0, 0⟩).add Ball.default).1.modified) :=
  add_assigns_fresh_key (Universe.mk 0 [] [] 0) (Timeline.mk ⟨0, [], [], 0⟩ ⟨[], 0, 0⟩)
    Ball.default (by simp [keysOf]) (by simp [keysOf])

/-- A key in the key list is found by lookup. -/
theorem lookupKey_isSome_of_mem (l : List (Key × Ball)) (k : Key)
    (hk : k ∈ keysOf l) : ∃ b, lookupKey l k = some b := by
  induction l with
  | nil => simp [keysOf] at hk
  | cons p rest ih =>
      obtain ⟨k', b'⟩ := p
      simp only [keysOf, List.map_cons, List.mem_cons] at hk
      by_cases hp : k' = k
      · exact ⟨b', by simp [lookupKey, hp]⟩
      · have hk2 : k ∈ keysOf rest := by
          rcases hk with h | h
          · exact absurd h.symm hp
          · simpa [keysOf] using h
        obtain ⟨b, hb⟩ := ih hk2
        exact ⟨b, by simp only [lookupKey]; rw [if_neg hp]; exact hb⟩

/-- The sorted pair is one of the two orders. -/
theorem mkHeapKey_cases (k1 k2 : Key) :
    mkHeapKey k1 k2 = (k1, k2) ∨ mkHeapKey k1 k2 = (k2, k1) := by
  unfold mkHeapKey
  split
  · exact Or.inl rfl
  · exact Or.inr rfl

/-- Pushing a pair of present keys succeeds. -/
theorem pushPair_isSome (T : Timeline) (h : CollisionHeap) (k1 k2 : Key)
    (h1 : k1 ∈ keysOf T.contents) (h2 : k2 ∈ keysOf T.contents) :
    ∃ h', T.pushPair h k1 k2 = some h' := by
  have hfst : (mkHeapKey k1 k2).1 ∈ keysOf T.contents := by
    rcases mkHeapKey_cases k1 k2 with hm | hm <;> rw [hm] <;> assumption
  have hsnd : (mkHeapKey k1 k2).2 ∈ keysOf T.contents := by
    rcases mkHeapKey_cases k1 k2 with hm | hm <;> rw [hm] <;> assumption
  obtain ⟨b1, hb1⟩ := lookupKey_isSome_of_mem _ _ hfst
  obtain ⟨b2, hb2⟩ := lookupKey_isSome_of_mem _ _ hsnd
  exact ⟨_, by simp only [Timeline.pushPair]; rw [hb1, hb2]⟩

/-- The inner push loop succeeds on present keys. -/
theorem pushAll_isSome (T : Timeline) (k1 : Key) (hk1 : k1 ∈ keysOf T.contents) :
    ∀ (l : List Key) (h : CollisionHeap), (∀ k ∈ l, k ∈ keysOf T.contents) →
      ∃ h', pushAll T k1 l h = some h' := by
  intro l
  induction l with
  | nil => intro h _; exact ⟨h, rfl⟩
  | cons k2 ks ih =>
      intro h hl
      obtain ⟨h', hh'⟩ := pushPair_isSome T h k1 k2 hk1 (hl k2 (List.mem_cons_self k2 ks))
      obtain ⟨h2, hh2⟩ := ih h' (fun k hk => hl k (List.mem_cons_of_mem k2 hk))
      exact ⟨h2, by simp only [pushAll]; rw [hh']; exact hh2⟩

/-- The recompute loop succeeds when every involved key is present. -/
theorem recomputeAux_isSome (T : Timeline) :
    ∀ (mod unmod : List Key) (h : CollisionHeap),
      (∀ k ∈ mod, k ∈ keysOf T.contents) → (∀ k ∈ unmod, k ∈ keysOf T.contents) →
      ∃ h2, recomputeAux T mod unmod h = some h2 := by
  intro mod
  induction mod with
  | nil => intro unmod h _ _; exact ⟨h, rfl⟩
  | cons k1 rest ih =>
      intro unmod h hmod hunmod
      have hk1 : k1 ∈ keysOf T.contents := hmod k1 (List.mem_cons_self k1 rest)
      obtain ⟨h', hh'⟩ := pushAll_isSome T k1 hk1 unmod h hunmod
      obtain ⟨h2, hh2⟩ := ih (k1 :: unmod) h'
        (fun k hk => hmod k (List.mem_cons_of_mem k1 hk))
        (by
          intro k hk
          rcases List.mem_cons.mp hk with hk | hk
          · exact hk ▸ hk1
          · exact hunmod k hk)
      exact ⟨h2, by simp only [recomputeAux]; rw [hh']; exact hh2⟩

/-- The inner loop is the fold of `pushPair` over its pair list. -/
theorem pushAll_eq_fold (T : Timeline) (k1 : Key) :
    ∀ (l : List Key) (h : CollisionHeap),
      pushAll T k1 l h = pushPairsFold T (l.map (fun k2 => (k1, k2))) h := by
  intro l
  induction l with
  | nil => intro h; rfl
  | cons k2 ks ih =>
      intro h
      simp only [pushAll, List.map_cons, pushPairsFold]
      cases T.pushPair h k1 k2 with
      | none => rfl
      | some h' => exact ih h'

/-- Folding over an appended pair list runs the two folds in sequence. -/
theorem pushPairsFold_append (T : Timeline) :
    ∀ (ps qs : List (Key × Key)) (h : CollisionHeap),
      pushPairsFold T (ps ++ qs) h
        = match pushPairsFold T ps h with
          | none => none
          | some h' => pushPairsFold T qs h' := by
  intro ps
  induction ps with
  | nil => intro qs h; rfl
  | cons p ps ih =>
      intro qs h
      simp only [List.cons_append, pushPairsFold]
      cases T.pushPair h p.1 p.2 with
      | none => rfl
      | some h' => exact ih qs h'

/-- The heap effect of `recompute_future` is the fold of `pushPair` over
exactly the pairs recorded by `recomputePairs`. -/
theorem recomputeAux_eq_fold (T : Timeline) :
    ∀ (mod unmod : List Key) (h : CollisionHeap),
      recomputeAux T mod unmod h = pushPairsFold T (recomputePairs mod unmod) h := by
  intro mod
  induction mod with
  | nil => intro unmod h; rfl
  | cons k1 rest ih =>
      intro unmod h
      simp only [recomputeAux, recomputePairs, pushPairsFold_append, pushAll_eq_fold]
      cases pushPairsFold T (unmod.map (fun k2 => (k1, k2))) h with
      | none => rfl
      | some h' => exact ih (k1 :: unmod) h'

/-- On a duplicate-free list, counting occurrences of one element gives its
membership indicator. -/
theorem countP_eq_ite_mem (b : Key) :
    ∀ l : List Key, l.Nodup →
      l.countP (fun x => decide (x = b)) = if b ∈ l then 1 else 0 := by
  intro l
  induction l with
  | nil => intro _; rfl
  | cons x xs ih =>
      intro hnd
      obtain ⟨hx, hxs⟩ := List.nodup_cons.mp hnd
      rw [List.countP_cons, ih hxs]
      by_cases hxb : x = b
      · subst hxb
        simp [hx]
      · simp [hxb, List.mem_cons, Ne.symm hxb]

/-- Counting an unordered pair among the pairs `(k, k2)` for `k2` running
over a duplicate-free list with a fixed first component. -/
theorem countPair_map_fixed (k a b : Key) (hab : a ≠ b) :
    ∀ unmod : List Key, unmod.Nodup →
      countPair (unmod.map (fun k2 => (k, k2))) a b
        = if k = a then (if b ∈ unmod then 1 else 0)
          else if k = b then (if a ∈ unmod then 1 else 0)
          else 0 := by
  intro unmod
  induction unmod with
  | nil =>
      intro _
      by_cases h1 : k = a <;> by_cases h2 : k = b <;> simp [countPair, h1, h2]
  | cons x xs ih =>
      intro hnd
      obtain ⟨hx, hxs⟩ := List.nodup_cons.mp hnd
      rw [List.map_cons]
      simp only [countPair, List.countP_cons] at ih ⊢
      rw [ih hxs]
      have hba : ¬b = a := fun h => hab h.symm
      by_cases hka : k = a
      · have hkb : ¬k = b := fun h => hab (hka ▸ h)
        by_cases hxb : x = b
        · have hbxs : b ∉ xs := hxb ▸ hx
          simp [hka, hkb, hxb, hbxs, hab, hba, List.mem_cons]
        · have hbx : ¬b = x := fun h => hxb h.symm
          simp [hka, hkb, hxb, hab, hba, hbx, List.mem_cons]
      · by_cases hkb : k = b
        · by_cases hxa : x = a
          · have haxs : a ∉ xs := hxa ▸ hx
            simp [hka, hkb, hxa, haxs, hab, hba, List.mem_cons]
          · have hax : ¬a = x := fun h => hxa h.symm
            simp [hka, hkb, hxa, hab, hba, hax, List.mem_cons]
        · simp [hka, hkb, hab, hba]

/-- Counting an unordered pair among the pairs recorded by the recompute
loop: a pair of distinct known keys occurs exactly once when at least one of
them is modified, and never otherwise. -/
theorem countPair_recomputePairs :
    ∀ (mod unmod : List Key), mod.Nodup → unmod.Nodup →
      (∀ k ∈ mod, k ∉ unmod) → ∀ a b : Key, a ≠ b →
      countPair (recomputePairs mod unmod) a b
        = if (a ∈ mod ∨ b ∈ mod) ∧ (a ∈ mod ∨ a ∈ unmod) ∧ (b ∈ mod ∨ b ∈ unmod)
          then 1 else 0 := by
  intro mod
  induction mod with
  | nil =>
      intro unmod _ _ _ a b _
      simp [recomputePairs, countPair]
  | cons k rest ih =>
      intro unmod hmodnd hunnd hdisj a b hab
      obtain ⟨hknr, hrestnd⟩ := List.nodup_cons.mp hmodnd
      have hkun : k ∉ unmod := hdisj k (List.mem_cons_self k rest)
      have hdisj2 : ∀ x ∈ rest, x ∉ (k :: unmod) := by
        intro x hx hmem
        rcases List.mem_cons.mp hmem with hxk | hxu
        · exact hknr (hxk ▸ hx)
        · exact hdisj x (List.mem_cons_of_mem k hx) hxu
      have ihv := ih (k :: unmod) hrestnd (List.nodup_cons.mpr ⟨hkun, hunnd⟩) hdisj2 a b hab
      have hmap := countPair_map_fixed k a b hab unmod hunnd
      simp only [recomputePairs] at ihv ⊢
      rw [show countPair (List.map (fun k2 => (k, k2)) unmod ++ recomputePairs rest (k :: unmod)) a b
            = countPair (List.map (fun k2 => (k, k2)) unmod) a b
              + countPair (recomputePairs rest (k :: unmod)) a b from
          List.countP_append _ _ _]
      rw [hmap, ihv]
      have hba : ¬b = a := fun h => hab h.symm
      by_cases hka : k = a
      · have hkb : ¬k = b := fun h => hab (hka ▸ h)
        have hanr : a ∉ rest := hka ▸ hknr
        by_cases hbr : b ∈ rest
        · have hbu : b ∉ unmod := hdisj b (List.mem_cons_of_mem k hbr)
          simp [hka, hkb, hbr, hbu, hanr, hab, hba, List.mem_cons]
        · have hbk : ¬b = k := fun h => hkb h.symm
          by_cases hbu : b ∈ unmod
          · simp [hka, hkb, hbr, hbu, hanr, hab, hba, hbk, List.mem_cons]
          · simp [hka, hkb, hbr, hbu, hanr, hab, hba, hbk, List.mem_cons]
      · by_cases hkb : k = b
        · have hbnr : b ∉ rest := hkb ▸ hknr
          by_cases har : a ∈ rest
          · have hau : a ∉ unmod := hdisj a (List.mem_cons_of_mem k har)
            simp [hka, hkb, har, hau, hbnr, hab, hba, List.mem_cons]
          · have hak : ¬a = k := fun h => hka h.symm
            by_cases hau : a ∈ unmod
            · simp [hka, hkb, har, hau, hbnr, hab, hba, hak, List.mem_cons]
            · simp [hka, hkb, har, hau, hbnr, hab, hba, hak, List.mem_cons]
        · have hak : ¬a = k := fun h => hka h.symm
          have hbk : ¬b = k := fun h => hkb h.symm
          simp [hka, hkb, hab, hba, hak, hbk, List.mem_cons]

/-- Claim C8: with every modified key stored (and duplicate-free key lists,
as Python's dict and set guarantee), `recompute_future` succeeds; its heap
effect is a fold of one push per recorded pair; every unordered pair of
distinct stored keys with at least one modified member is pushed exactly
once; pairs of two unmodified keys are never pushed; and the modified set is
empty on return. -/
theorem recompute_future_pushes_each_stale_pair_once (T : Timeline)
    (hnm : T.modified.Nodup) (hnk : (keysOf T.contents).Nodup)
    (hsub : ∀ k ∈ T.modified, k ∈ keysOf T.contents) :
    (∃ h2, recomputeAux T T.modified (unmodifiedOf T) T.future = some h2
      ∧ T.recompute_future = some { T with modified := [], future := h2 }
      ∧ pushPairsFold T (recomputePairs T.modified (unmodifiedOf T)) T.future = some h2)
    ∧ (∀ T2, T.recompute_future = some T2 → T2.modified = [])
    ∧ (∀ a b : Key, a ≠ b →
        countPair (recomputePairs T.modified (unmodifiedOf T)) a b
          = if (a ∈ T.modified ∨ b ∈ T.modified)
              ∧ a ∈ keysOf T.contents ∧ b ∈ keysOf T.contents then 1 else 0) := by
  have hun_sub : ∀ k ∈ unmodifiedOf T, k ∈ keysOf T.contents := by
    intro k hk
    exact (List.mem_filter.mp hk).1
  have hun_nd : (unmodifiedOf T).Nodup := hnk.filter _
  have hdisj : ∀ k ∈ T.modified, k ∉ unmodifiedOf T := by
    intro k hk hmem
    have hf := (List.mem_filter.mp hmem).2
    simp only [decide_eq_true_eq] at hf
    exact hf hk
  obtain ⟨h2, hh2⟩ := recomputeAux_isSome T T.modified (unmodifiedOf T) T.future hsub hun_sub
  refine ⟨⟨h2, hh2, ?_, ?_⟩, ?_, ?_⟩
  · simp only [Timeline.recompute_future]
    rw [hh2]
  · rw [← recomputeAux_eq_fold]
    exact hh2
  · intro T2 hT2
    simp only [Timeline.recompute_future, hh2] at hT2
    cases hT2
    rfl
  · intro a b hab
    rw [countPair_recomputePairs T.modified (unmodifiedOf T) hnm hun_nd hdisj a b hab]
    have hcov : ∀ x : Key,
        (x ∈ T.modified ∨ x ∈ unmodifiedOf T) ↔ x ∈ keysOf T.contents := by
      intro x
      constructor
      · rintro (h | h)
        · exact hsub x h
        · exact hun_sub x h
      · intro h
        by_cases hm : x ∈ T.modified
        · exact Or.inl hm
        · exact Or.inr (List.mem_filter.mpr ⟨h, by simpa using hm⟩)
    have hiff : ((a ∈ T.modified ∨ b ∈ T.modified) ∧ (a ∈ T.modified ∨ a ∈ unmodifiedOf T)
        ∧ (b ∈ T.modified ∨ b ∈ unmodifiedOf T))
        ↔ ((a ∈ T.modified ∨ b ∈ T.modified)
            ∧ a ∈ keysOf T.contents ∧ b ∈ keysOf T.contents) := by
      rw [hcov a, hcov b]
    exact if_congr hiff rfl rfl

/-- A two-body timeline with one modified key, for concrete witnesses. -/
def sampleTimeline : Timeline :=
  ⟨⟨0, [(0, Ball.default), (1, Ball.default)], [0], 2⟩, ⟨[], 0, 0⟩⟩

/-- Witness for C8 on `sampleTimeline`. -/
theorem recompute_future_pushes_each_stale_pair_once_witness :
    (∃ h2, recomputeAux sampleTimeline sampleTimeline.modified (unmodifiedOf sampleTimeline)
          sampleTimeline.future = some h2
      ∧ sampleTimeline.recompute_future
          = some { sampleTimeline with modified := [], future := h2 }
      ∧ pushPairsFold sampleTimeline
          (recomputePairs sampleTimeline.modified (unmodifiedOf sampleTimeline))
          sampleTimeline.future = some h2)
    ∧ (∀ T2, sampleTimeline.recompute_future = some T2 → T2.modified = [])
    ∧ (∀ a b : Key, a ≠ b →
        countPair (recomputePairs sampleTimeline.modified (unmodifiedOf sampleTimeline)) a b
          = if (a ∈ sampleTimeline.modified ∨ b ∈ sampleTimeline.modified)
              ∧ a ∈ keysOf sampleTimeline.contents ∧ b ∈ keysOf sampleTimeline.contents
            then 1 else 0) :=
  recompute_future_pushes_each_stale_pair_once sampleTimeline
    (by simp [sampleTimeline])
    (by simp [sampleTimeline, keysOf])
    (by
      intro k hk
      simp only [sampleTimeline, List.mem_singleton] at hk
      simp [sampleTimeline, keysOf, hk])

/-- Well-formedness of reachable heaps: the refined `heapq` list is sorted by
time. -/
def heapWF (h : CollisionHeap) : Prop := h.heap.Sorted itemLE

/-- Voiding items preserves their times, hence sortedness. -/
theorem sorted_voidKey (l : List CollisionHeapItem) (key : Key × Key)
    (hs : l.Sorted itemLE) : (voidKey l key).Sorted itemLE := by
  have ht : ∀ z : CollisionHeapItem,
      ((if z.key = key ∧ z.void = false then { z with void := true } else z) :
        CollisionHeapItem).t = z.t := by
    intro z
    split <;> rfl
  exact List.Pairwise.map _
    (fun x y hxy => by unfold itemLE at hxy ⊢; rw [ht x, ht y]; exact hxy) hs

/-- `push` preserves heap sortedness. -/
theorem heapWF_push (h : CollisionHeap) (key : Key × Key) (tval : PTime)
    (hwf : heapWF h) : heapWF (h.push key tval) := by
  have h1wf : ((if h.containsKey key
      then { h with heap := voidKey h.heap key, void_count := h.void_count + 1 }
      else h) : CollisionHeap).heap.Sorted itemLE := by
    split
    · exact sorted_voidKey h.heap key hwf
    · exact hwf
  unfold heapWF CollisionHeap.push
  cases tval with
  | none => exact h1wf
  | some r => exact List.Sorted.orderedInsert ⟨key, false, r⟩ _ h1wf

/-- `_pop` leaves a suffix of the item list. -/
theorem popAux_suffix : ∀ (l : List CollisionHeapItem) (e v : ℤ),
    (popAux l e v).2.1 <:+ l := by
  intro l
  induction l with
  | nil => intro e v; exact List.suffix_refl _
  | cons it rest ih =>
      intro e v
      by_cases hv : it.void = true
      · simp only [popAux, hv, if_true]
        exact ((ih (e - 1) (v - 1)).trans (List.suffix_cons it rest))
      · simp only [popAux, hv, if_false]
        exact List.suffix_cons it rest

/-- The `next()` cleanup leaves a suffix of the item list. -/
theorem next_auxes_suffix : ∀ l : List CollisionHeapItem,
    (∀ e v : ℤ, (nextAux l e v).2.1 <:+ l)
    ∧ (∀ e v : ℤ, (nextPopAux l e v).2.1 <:+ l) := by
  intro l
  induction l with
  | nil => exact ⟨fun e v => List.suffix_refl _, fun e v => List.suffix_refl _⟩
  | cons it rest ih =>
      constructor
      · intro e v
        by_cases hv : it.void = true
        · simp only [nextAux, hv, if_true]
          exact (ih.2 (e - 1) (v - 1)).trans (List.suffix_cons it rest)
        · simp only [nextAux, hv, if_false]
          exact List.suffix_refl _
      · intro e v
        by_cases hv : it.void = true
        · simp only [nextPopAux, hv, if_true]
          exact (ih.2 (e - 1) (v - 1)).trans (List.suffix_cons it rest)
        · simp only [nextPopAux, hv, if_false]
          exact (ih.1 (e - 1) v).trans (List.suffix_cons it rest)

/-- The `next()` cleanup either empties the list reporting `∞`, or stops at a
live head and reports its time. -/
theorem next_auxes_cases : ∀ l : List CollisionHeapItem,
    (∀ e v : ℤ, ((nextAux l e v).1 = none ∧ (nextAux l e v).2.1 = [])
      ∨ ∃ it rest', (nextAux l e v).2.1 = it :: rest' ∧ it.void = false
          ∧ (nextAux l e v).1 = some it.t)
    ∧ (∀ e v : ℤ, ((nextPopAux l e v).1 = none ∧ (nextPopAux l e v).2.1 = [])
      ∨ ∃ it rest', (nextPopAux l e v).2.1 = it :: rest' ∧ it.void = false
          ∧ (nextPopAux l e v).1 = some it.t) := by
  intro l
  induction l with
  | nil => exact ⟨fun e v => Or.inl ⟨rfl, rfl⟩, fun e v => Or.inl ⟨rfl, rfl⟩⟩
  | cons it rest ih =>
      constructor
      · intro e v
        by_cases hv : it.void = true
        · simp only [nextAux, hv, if_true]
          exact ih.2 (e - 1) (v - 1)
        · simp only [nextAux, hv, if_false]
          exact Or.inr ⟨it, rest, rfl, Bool.not_eq_true _ ▸ hv, rfl⟩
      · intro e v
        by_cases hv : it.void = true
        · simp only [nextPopAux, hv, if_true]
          exact ih.2 (e - 1) (v - 1)
        · simp only [nextPopAux, hv, if_false]
          exact ih.1 (e - 1) v

/-- `pushPair` preserves heap sortedness. -/
theorem pushPair_WF (T : Timeline) (h : CollisionHeap) (k1 k2 : Key)
    (h' : CollisionHeap) (hp : T.pushPair h k1 k2 = some h') (hw : heapWF h) :
    heapWF h' := by
  simp only [Timeline.pushPair] at hp
  cases hl1 : lookupKey T.contents (mkHeapKey k1 k2).1 with
  | none => rw [hl1] at hp; cases hp
  | some b1 =>
      cases hl2 : lookupKey T.contents (mkHeapKey k1 k2).2 with
      | none => rw [hl1, hl2] at hp; cases hp
      | some b2 =>
          rw [hl1, hl2] at hp
          cases hp
          exact heapWF_push h _ _ hw

/-- The inner push loop preserves heap sortedness. -/
theorem pushAll_WF (T : Timeline) (k1 : Key) :
    ∀ (l : List Key) (h h' : CollisionHeap),
      pushAll T k1 l h = some h' → heapWF h → heapWF h' := by
  intro l
  induction l with
  | nil => intro h h' hh hw; cases hh; exact hw
  | cons k2 ks ih =>
      intro h h' hh hw
      simp only [pushAll] at hh
      cases hp : T.pushPair h k1 k2 with
      | none => rw [hp] at hh; cases hh
      | some hmid =>
          rw [hp] at hh
          exact ih hmid h' hh (pushPair_WF T h k1 k2 hmid hp hw)

/-- The recompute loop preserves heap sortedness. -/
theorem recomputeAux_WF (T : Timeline) :
    ∀ (mod unmod : List Key) (h h' : CollisionHeap),
      recomputeAux T mod unmod h = some h' → heapWF h → heapWF h' := by
  intro mod
  induction mod with
  | nil => intro unmod h h' hh hw; cases hh; exact hw
  | cons k1 rest ih =>
      intro unmod h h' hh hw
      simp only [recomputeAux] at hh
      cases hp : pushAll T k1 unmod h with
      | none => rw [hp] at hh; cases hh
      | some hmid =>
          rw [hp] at hh
          exact ih (k1 :: unmod) hmid h' hh (pushAll_WF T k1 unmod h hmid hp hw)

/-- `recompute_future` preserves heap sortedness. -/
theorem recompute_future_WF (T T2 : Timeline)
    (h : T.recompute_future = some T2) (hw : heapWF T.future) :
    heapWF T2.future := by
  simp only [Timeline.recompute_future] at h
  cases hr : recomputeAux T T.modified (unmodifiedOf T) T.future with
  | none => rw [hr] at h; cases h
  | some h2 =>
      rw [hr] at h
      cases h
      exact recomputeAux_WF T T.modified (unmodifiedOf T) T.future h2 hr hw

/-- `do_next_collision` preserves heap sortedness. -/
theorem do_next_collision_WF (T T2 : Timeline)
    (h : T.do_next_collision = some T2) (hw : heapWF T.future) :
    heapWF T2.future := by
  simp only [Timeline.do_next_collision, CollisionHeap.pop] at h
  cases ho : (popAux T.future.heap T.future.entry_count T.future.void_count).1 with
  | none => rw [ho] at h; cases h
  | some it =>
      rw [ho] at h
      dsimp only at h
      have hfutWF : heapWF
          (⟨(popAux T.future.heap T.future.entry_count T.future.void_count).2.1,
            (popAux T.future.heap T.future.entry_count T.future.void_count).2.2.2,
            (popAux T.future.heap T.future.entry_count T.future.void_count).2.2.1⟩ :
            CollisionHeap) :=
        hw.sublist (popAux_suffix T.future.heap T.future.entry_count
          T.future.void_count).sublist
      cases hl1 : lookupKey T.contents it.key.1 with
      | none => rw [hl1] at h; cases h
      | some b1 =>
          cases hl2 : lookupKey T.contents it.key.2 with
          | none => rw [hl1, hl2] at h; cases h
          | some b2 =>
              rw [hl1, hl2] at h
              exact recompute_future_WF _ _ h hfutWF

/-- The event loop never raises `TimeTravelError`. -/
theorem advanceLoop_ne_timeTravel : ∀ (fuel : ℕ) (T : Timeline) (t : ℝ) (T2 : Timeline),
    advanceLoop fuel T t ≠ AdvanceResult.timeTravel T2 := by
  intro fuel
  induction fuel with
  | zero => intro T t T2 h; cases h
  | succ n ih =>
      intro T t T2 h
      simp only [advanceLoop] at h
      cases hn : (T.future.nextClean).1 with
      | none => rw [hn] at h; cases h
      | some tn =>
          rw [hn] at h
          dsimp only at h
          by_cases hlt : tn < t
          · rw [if_pos hlt] at h
            cases hd : ({ T with future := (T.future.nextClean).2 } : Timeline).do_next_collision with
            | none => rw [hd] at h; cases h
            | some T3 =>
                rw [hd] at h
                dsimp only at h
                exact ih T3 t T2 h
          · rw [if_neg hlt] at h
            cases h

/-- When the event loop returns normally, the final time is the target and no
item below the target remains in the heap. -/
theorem advanceLoop_ok : ∀ (fuel : ℕ) (T : Timeline) (t : ℝ) (T2 : Timeline),
    heapWF T.future → advanceLoop fuel T t = AdvanceResult.ok T2 →
    T2.t = t ∧ ∀ it ∈ T2.future.heap, it.void = false → t ≤ it.t := by
  intro fuel
  induction fuel with
  | zero => intro T t T2 _ h; cases h
  | succ n ih =>
      intro T t T2 hwf h
      simp only [advanceLoop] at h
      have hsuf := (next_auxes_suffix T.future.heap).1 T.future.entry_count T.future.void_count
      have hwf2 : ((T.future.nextClean).2).heap.Sorted itemLE := hwf.sublist hsuf.sublist
      rcases (next_auxes_cases T.future.heap).1 T.future.entry_count T.future.void_count with
        ⟨hnone, hempty⟩ | ⟨itm, rest', hheap, hlive, hsome⟩
      · have hn : (T.future.nextClean).1 = none := hnone
        rw [hn] at h
        dsimp only at h
        cases h
        refine ⟨rfl, ?_⟩
        intro it hit _
        have hemp2 : (T.future.nextClean).2.heap = [] := hempty
        rw [hemp2] at hit
        exact absurd hit (List.not_mem_nil it)
      · have hn : (T.future.nextClean).1 = some itm.t := hsome
        rw [hn] at h
        dsimp only at h
        by_cases hlt : itm.t < t
        · rw [if_pos hlt] at h
          cases hd : ({ T with future := (T.future.nextClean).2 } : Timeline).do_next_collision with
          | none => rw [hd] at h; cases h
          | some T3 =>
              rw [hd] at h
              dsimp only at h
              exact ih T3 t T2 (do_next_collision_WF _ T3 hd hwf2) h
        · rw [if_neg hlt] at h
          cases h
          refine ⟨rfl, ?_⟩
          intro it hit _
          have hle : t ≤ itm.t := not_lt.mp hlt
          have hheap2 : (T.future.nextClean).2.heap = itm :: rest' := hheap
          rw [hheap2] at hit hwf2
          rcases List.mem_cons.mp hit with rfl | hit'
          · exact hle
          · exact hle.trans ((List.sorted_cons.mp hwf2).1 it hit')

/-- Supporting fact for C6 (the guard half the code gets right): with
`allow_time_travel = false`, `advance_to(t)` raises `TimeTravelError` exactly
when `t < t_now`, and that raise happens before any state mutation (the
result carries the unchanged state); when the call returns normally, the
final time is the target and no prediction strictly below the target remains
in the heap.  Note the last conclusion is strictly weaker than resolving
every such event: see `advance_to_drops_pending_event` below. -/
theorem advance_to_guards_time_travel (T : Timeline) (t : ℝ) (fuel : ℕ)
    (hwf : heapWF T.future) :
    ((∃ T2, T.advance_to t false fuel = AdvanceResult.timeTravel T2) ↔ t < T.t)
    ∧ (∀ T2, T.advance_to t false fuel = AdvanceResult.timeTravel T2 → T2 = T)
    ∧ (∀ T2, T.advance_to t false fuel = AdvanceResult.ok T2 →
        T2.t = t ∧ ∀ it ∈ T2.future.heap, it.void = false → t ≤ it.t) := by
  unfold Timeline.advance_to
  by_cases hlt : t < T.t
  · rw [if_pos (show false = false ∧ t < T.t from ⟨rfl, hlt⟩)]
    refine ⟨⟨fun _ => hlt, fun _ => ⟨T, rfl⟩⟩, ?_, ?_⟩
    · intro T2 h
      injection h with h2
      exact h2.symm
    · intro T2 h
      cases h
  · rw [if_neg (show ¬(false = false ∧ t < T.t) from fun hc => hlt hc.2)]
    have hKWF : ∀ T1, (if T.modified.isEmpty then some T else T.recompute_future) = some T1 →
        heapWF T1.future := by
      intro T1 h1
      by_cases hm : T.modified.isEmpty
      · rw [if_pos hm] at h1
        cases h1
        exact hwf
      · rw [if_neg hm] at h1
        exact recompute_future_WF T T1 h1 hwf
    cases hrec : (if T.modified.isEmpty then some T else T.recompute_future) with
    | none =>
        dsimp only
        refine ⟨⟨?_, ?_⟩, ?_, ?_⟩
        · rintro ⟨T2, h⟩
          cases h
        · intro hc
          exact absurd hc hlt
        · intro T2 h
          cases h
        · intro T2 h
          cases h
    | some T1 =>
        dsimp only
        refine ⟨⟨?_, ?_⟩, ?_, ?_⟩
        · rintro ⟨T2, h⟩
          exact absurd h (advanceLoop_ne_timeTravel fuel T1 t T2)
        · intro hc
          exact absurd hc hlt
        · intro T2 h
          exact absurd h (advanceLoop_ne_timeTravel fuel T1 t T2)
        · intro T2 h
          exact advanceLoop_ok fuel T1 t T2 (hKWF T1 hrec) h

/-- The guard facts instantiated on `sampleTimeline` with target time 5. -/
theorem advance_to_guards_time_travel_witness :
    ((∃ T2, sampleTimeline.advance_to 5 false 1 = AdvanceResult.timeTravel T2)
        ↔ (5 : ℝ) < sampleTimeline.t)
    ∧ (∀ T2, sampleTimeline.advance_to 5 false 1 = AdvanceResult.timeTravel T2 →
        T2 = sampleTimeline)
    ∧ (∀ T2, sampleTimeline.advance_to 5 false 1 = AdvanceResult.ok T2 →
        T2.t = 5 ∧ ∀ it ∈ T2.future.heap, it.void = false → (5 : ℝ) ≤ it.t) :=
  advance_to_guards_time_travel sampleTimeline 5 1 (by simp [sampleTimeline, heapWF])

/-- A timeline whose heap holds a superseded (void) prediction at `t = 1`
followed by the live re-prediction of the same pair at `t = 2` — exactly the
heap produced by `push t_a = 1` then `push t_b = 2` (reproved below), with
both bodies stored and nothing marked modified. -/
def droppedEventTimeline : Timeline :=
  ⟨⟨0, [(0, Ball.default), (1, Ball.default)], [], 2⟩,
   ⟨[⟨(0, 1), true, 1⟩, ⟨(0, 1), false, 2⟩], 1, 2⟩⟩

/-- Claim C6 (failing input): on `droppedEventTimeline`, whose heap is
reachable by two pushes for one pair, `advance_to(5)` returns normally with
`t_now = 5` — but the pending live event at `t = 2 < 5` is *not* resolved:
the loop's `next()` call discards it along with the void prefix
(`do_next_collision` never runs, the bodies and modified set are untouched,
no impulse is applied), leaving an empty heap.  The claim says every pending
event strictly below the target is resolved. -/
theorem advance_to_drops_pending_event :
    (((CollisionHeap.mk [] 0 0).push (0, 1) (some 1)).push (0, 1) (some 2)
        = droppedEventTimeline.future)
    ∧ (⟨(0, 1), false, 2⟩ : CollisionHeapItem) ∈ droppedEventTimeline.future.heap
    ∧ (2 : ℝ) < 5
    ∧ droppedEventTimeline.advance_to 5 false 1
        = AdvanceResult.ok { droppedEventTimeline with future := ⟨[], 0, 0⟩, t := 5 }
    ∧ ({ droppedEventTimeline with future := ⟨[], 0, 0⟩, t := 5 } : Timeline).contents
        = droppedEventTimeline.contents
    ∧ ({ droppedEventTimeline with future := ⟨[], 0, 0⟩, t := 5 } : Timeline).modified
        = droppedEventTimeline.modified := by
  refine ⟨?_, ?_, by norm_num, ?_, rfl, rfl⟩
  · have h1 : (CollisionHeap.mk [] 0 0).push (0, 1) (some 1)
        = CollisionHeap.mk [⟨(0, 1), false, 1⟩] 0 1 := by
      norm_num [CollisionHeap.push, CollisionHeap.containsKey, List.orderedInsert]
    rw [h1]
    norm_num [CollisionHeap.push, CollisionHeap.containsKey, voidKey,
      List.orderedInsert, itemLE, droppedEventTimeline]
  · simp [droppedEventTimeline]
  · norm_num [Timeline.advance_to, advanceLoop, CollisionHeap.nextClean, nextAux,
      nextPopAux, droppedEventTimeline]

end

end Stepless
